import Mathlib

/-!
Verification of the lustro scan-results frontend core: the smart-selection
engine, the disposition (delete/trash) selection update, the action-toolbar
confirmation flow, and the WebSocket progress-subscription client.

The definitions below are shallow embeddings of the TypeScript source:

* the `Results` page (`handleSmartSelect`, `handleDelete`, `handleTrash`),
* the `ActionToolbar` component (confirmation dialog state machine),
* the `useWebSocket` hook (message handling and reconnect backoff).

JavaScript `Array.prototype.sort` is a stable sort (ECMAScript 2019); it is
embedded as a stable insertion sort (`insertionSortB`), and separately as
Lean's stable `List.mergeSort`, with a theorem that the two embeddings agree
for the comparators used by the code.
-/

-- ---------------------------------------------------------------------------
-- Data model (src/frontend/src/types/index.ts)
-- ---------------------------------------------------------------------------

/-- A file entry of a scan result.  The source stores `modified` as an ISO
timestamp string and compares entries via `new Date(modified).getTime()`;
here `modified` is that numeric timestamp. -/
structure FileEntry where
  path : String
  size : Nat
  modified : Nat
deriving DecidableEq, Repr

/-- A group of related findings (duplicate set or similarity cluster). -/
structure FileGroup where
  id : Nat
  files : List FileEntry
  total_size : Nat
deriving DecidableEq, Repr

/-- The smart-selection strategies offered by the ActionToolbar dropdown. -/
inductive SmartSelectStrategy where
  | keepNewest
  | keepOldest
  | keepLargest
  | keepSmallest
  | selectAllExceptOne
deriving DecidableEq, Repr

/-- Result of a bulk delete/trash API call: the succeeded paths and the
failed paths with their error text. -/
structure FileOperationResult where
  success : List String
  failed : List (String × String)
deriving DecidableEq, Repr

-- ---------------------------------------------------------------------------
-- Stable sorting: embedding of JavaScript Array.prototype.sort
-- ---------------------------------------------------------------------------

/-- Insert `a` into `l` in front of the first element `b` with `le a b`.
Used by `insertionSortB`; with ties (`le a b` and `le b a`) the element that
was earlier in the input ends up earlier in the output. -/
def orderedInsertB (le : α → α → Bool) (a : α) : List α → List α
  | [] => [a]
  | b :: l => if le a b then a :: b :: l else b :: orderedInsertB le a l

/-- Stable insertion sort with a boolean comparator: the embedding of
JavaScript's stable `Array.prototype.sort`. -/
def insertionSortB (le : α → α → Bool) : List α → List α
  | [] => []
  | a :: l => orderedInsertB le a (insertionSortB le l)

-- ---------------------------------------------------------------------------
-- Smart selection (Results page, handleSmartSelect)
-- ---------------------------------------------------------------------------

/-- The sort each strategy applies to a copied group before slicing off the
first element.  Comparators mirror the source: keep-newest sorts by modified
time descending, keep-oldest ascending, keep-largest by size descending,
keep-smallest by size ascending, and select-all-except-one does not sort. -/
def sortForStrategy (strategy : SmartSelectStrategy) (files : List FileEntry) :
    List FileEntry :=
  match strategy with
  | .keepNewest => insertionSortB (fun a b => decide (b.modified ≤ a.modified)) files
  | .keepOldest => insertionSortB (fun a b => decide (a.modified ≤ b.modified)) files
  | .keepLargest => insertionSortB (fun a b => decide (b.size ≤ a.size)) files
  | .keepSmallest => insertionSortB (fun a b => decide (a.size ≤ b.size)) files
  | .selectAllExceptOne => files

/-- Paths contributed by one group: the group is (possibly) sorted and
everything after the first element is selected, mirroring
sorted.slice(1).forEach(f => toSelect.add(f.path)). -/
def selectGroup (strategy : SmartSelectStrategy) (g : FileGroup) : List String :=
  ((sortForStrategy strategy g.files).drop 1).map FileEntry.path

/-- The body of handleSmartSelect: a fresh set is filled group by group,
skipping every group with fewer than two files. -/
def selectFindings (strategy : SmartSelectStrategy) (groups : List FileGroup) :
    Finset String :=
  groups.foldl
    (fun acc g =>
      if g.files.length < 2 then acc
      else (selectGroup strategy g).foldl (fun s p => insert p s) acc)
    ∅

/-- The full handleSmartSelect callback: when the result data is not grouped
the callback returns early and the selection is untouched; otherwise the
selection state is replaced by the freshly computed set. -/
def handleSmartSelect (strategy : SmartSelectStrategy)
    (groups : Option (List FileGroup)) (prev : Finset String) : Finset String :=
  match groups with
  | none => prev
  | some gs => selectFindings strategy gs

-- ---------------------------------------------------------------------------
-- Disposition handlers (Results page, handleDelete / handleTrash)
-- ---------------------------------------------------------------------------

/-- The selection update performed by handleDelete after the API call
returns: the previous set is copied and every path of result.success is
deleted from the copy.  The failure list is never consulted. -/
def handleDeleteSelection (prev : Finset String) (result : FileOperationResult) :
    Finset String :=
  result.success.foldl (fun next p => next.erase p) prev

/-- The selection update performed by handleTrash after the API call
returns; its body is identical to the one in handleDelete. -/
def handleTrashSelection (prev : Finset String) (result : FileOperationResult) :
    Finset String :=
  result.success.foldl (fun next p => next.erase p) prev

-- ---------------------------------------------------------------------------
-- ActionToolbar confirmation flow (components/results/ActionToolbar)
-- ---------------------------------------------------------------------------

/-- The two destructive dispositions the toolbar can stage for
confirmation. -/
inductive DispositionKind where
  | delete
  | trash
deriving DecidableEq, Repr

/-- The toolbar's local state: the confirmAction useState hook.  The
confirmation dialog is open exactly when it is not null. -/
structure ToolbarState where
  confirmAction : Option DispositionKind
deriving DecidableEq, Repr

/-- User interactions the rendered toolbar offers.  dialogOpenChange covers
the dialog dismissing itself (Cancel button, escape, outside click), which
runs onOpenChange and clears confirmAction. -/
inductive ToolbarEvent where
  | clickClearSelection
  | clickSmartSelect (strategy : SmartSelectStrategy)
  | clickExportCSV
  | clickTrashButton
  | clickDeleteButton
  | dialogOpenChange
  | clickConfirm
deriving DecidableEq, Repr

/-- Callbacks the toolbar can invoke on its parent, plus the local CSV
export. -/
inductive ToolbarEffect where
  | callDelete (paths : List String)
  | callTrash (paths : List String)
  | callClearSelection
  | callSmartSelect (strategy : SmartSelectStrategy)
  | exportCSV
deriving DecidableEq, Repr

/-- Whether the confirmation dialog is rendered: open is wired to
confirmAction not being null. -/
def dialogOpen (s : ToolbarState) : Bool :=
  s.confirmAction.isSome

/-- The AlertDialogAction onClick handler: delete staged means onDelete is
called, anything else means onTrash, and confirmAction is reset to null. -/
def confirmClick (s : ToolbarState) (selectedPaths : List String) :
    ToolbarState × List ToolbarEffect :=
  if s.confirmAction = some .delete then
    (⟨none⟩, [.callDelete selectedPaths])
  else
    (⟨none⟩, [.callTrash selectedPaths])

/-- One user interaction with the toolbar.  The Delete Selected and Move to
Trash buttons only stage a disposition (opening the dialog); the dialog's
confirm control exists only while the dialog is open, so clickConfirm on a
closed dialog cannot occur and is modelled as a no-op. -/
def toolbarStep (s : ToolbarState) (e : ToolbarEvent)
    (selectedPaths : List String) : ToolbarState × List ToolbarEffect :=
  match e with
  | .clickClearSelection => (s, [.callClearSelection])
  | .clickSmartSelect strategy => (s, [.callSmartSelect strategy])
  | .clickExportCSV => (s, [.exportCSV])
  | .clickTrashButton => (⟨some .trash⟩, [])
  | .clickDeleteButton => (⟨some .delete⟩, [])
  | .dialogOpenChange => (⟨none⟩, [])
  | .clickConfirm => if dialogOpen s then confirmClick s selectedPaths else (s, [])

-- ---------------------------------------------------------------------------
-- WebSocket progress subscription (hooks/useWebSocket)
-- ---------------------------------------------------------------------------

/-- Job lifecycle states (mirrors ScanStatus). -/
inductive ScanStatus where
  | pending
  | running
  | completed
  | failed
  | cancelled
deriving DecidableEq, Repr

/-- A progress snapshot as delivered to onProgress. -/
structure ScanProgress where
  current_stage : String
  current_file : String
  files_processed : Nat
  elapsed_seconds : Nat
deriving DecidableEq, Repr

/-- The WsMessage union: a heartbeat ping, a terminal done message carrying
the final status, or a progress update (the variant with no type tag). -/
inductive WsMessage where
  | ping
  | done (status : ScanStatus)
  | progress (p : ScanProgress)
deriving DecidableEq, Repr

/-- The callbacks the hook can hand to its caller. -/
inductive WsCallback where
  | onProgress (p : ScanProgress)
  | onDone (status : ScanStatus)
deriving DecidableEq, Repr

/-- Observable hook state: the connected flag and the retriesRef counter. -/
structure WsClientState where
  connected : Bool
  retries : Nat
deriving DecidableEq, Repr

/-- The bound on consecutive reconnect attempts. -/
def maxRetries : Nat := 5

/-- The backoff delay scheduled for reconnect attempt number r:
Math.min(1000 * Math.pow(2, r), 10000). -/
def reconnectDelay (r : Nat) : Nat :=
  min (1000 * 2 ^ r) 10000

/-- The ws.onopen handler: mark connected and reset the retry counter. -/
def onOpen (_st : WsClientState) : WsClientState :=
  { connected := true, retries := 0 }

/-- The ws.onclose handler: mark disconnected, and while fewer than
maxRetries attempts have been made, bump the counter and schedule a
reconnect after the backoff delay; otherwise schedule nothing, abandoning
reconnection.  The second component is the scheduled delay, if any. -/
def onClose (st : WsClientState) : WsClientState × Option Nat :=
  if st.retries < maxRetries then
    ({ connected := false, retries := st.retries + 1 },
      some (reconnectDelay (st.retries + 1)))
  else
    ({ st with connected := false }, none)

/-- The ws.onmessage handler.  The raw event data is parsed JSON: none
models a parse failure (ignored).  A ping returns immediately, a done
message invokes onDone with the final status, anything else is delivered to
onProgress.  The handler never touches the hook's state. -/
def onMessage (st : WsClientState) (raw : Option WsMessage) :
    WsClientState × List WsCallback :=
  match raw with
  | none => (st, [])
  | some .ping => (st, [])
  | some (.done s) => (st, [.onDone s])
  | some (.progress p) => (st, [.onProgress p])

/-- The delays (or abandonments) scheduled by n consecutive close events
with no successful open in between. -/
def closeTrace : Nat → WsClientState → List (Option Nat)
  | 0, _ => []
  | n + 1, st => (onClose st).2 :: closeTrace n (onClose st).1

-- ---------------------------------------------------------------------------
-- Alternative embedding of the sort, and claim-side reference definitions
-- ---------------------------------------------------------------------------

/-- The per-strategy sort embedded with Lean's stable merge sort instead of
the stable insertion sort: a second faithful reading of the stable
Array.prototype.sort. -/
def sortForStrategyMS (strategy : SmartSelectStrategy)
    (files : List FileEntry) : List FileEntry :=
  match strategy with
  | .keepNewest => files.mergeSort (fun a b => decide (b.modified ≤ a.modified))
  | .keepOldest => files.mergeSort (fun a b => decide (a.modified ≤ b.modified))
  | .keepLargest => files.mergeSort (fun a b => decide (b.size ≤ a.size))
  | .keepSmallest => files.mergeSort (fun a b => decide (a.size ≤ b.size))
  | .selectAllExceptOne => files

/-- selectGroup computed over the merge-sort embedding. -/
def selectGroupMS (strategy : SmartSelectStrategy) (g : FileGroup) : List String :=
  ((sortForStrategyMS strategy g.files).drop 1).map FileEntry.path

/-- selectFindings computed over the merge-sort embedding. -/
def selectFindingsMS (strategy : SmartSelectStrategy)
    (groups : List FileGroup) : Finset String :=
  groups.foldl
    (fun acc g =>
      if g.files.length < 2 then acc
      else (selectGroupMS strategy g).foldl (fun s p => insert p s) acc)
    ∅

/-- Lexicographic order on character lists by character code, the order
JavaScript string comparison uses. -/
def charListLtB : List Char → List Char → Bool
  | [], [] => false
  | [], _ :: _ => true
  | _ :: _, [] => false
  | a :: as, b :: bs =>
      if a.toNat < b.toNat then true
      else if b.toNat < a.toNat then false
      else charListLtB as bs

/-- Path order: lexicographic comparison of the underlying characters. -/
def pathLtB (p q : String) : Bool :=
  charListLtB p.data q.data

/-- Stated from the claim's words, for comparison with the code: the single
largest entry of a group where a tie in size is broken by the path (the
smaller path wins the tie, so path order, not incoming order, decides which
equally-sized entry is kept). -/
def claimLargestByPathTie (files : List FileEntry) : Option FileEntry :=
  files.foldl
    (fun acc f =>
      match acc with
      | none => some f
      | some g =>
          if decide (g.size < f.size) ||
              (decide (f.size = g.size) && pathLtB f.path g.path) then some f
          else some g)
    none

/-- A two-file duplicate group with equal sizes whose incoming order
disagrees with path order: file "b" arrives before file "a". -/
def c1Group : FileGroup :=
  ⟨0, [⟨"b", 5, 0⟩, ⟨"a", 5, 1⟩], 10⟩

/-- A three-file group with distinct modification times, oldest first. -/
def c2Group : FileGroup :=
  ⟨1, [⟨"f1", 10, 100⟩, ⟨"f2", 20, 200⟩, ⟨"f3", 30, 300⟩], 60⟩

-- ---------------------------------------------------------------------------
-- Helper theorems
-- ---------------------------------------------------------------------------

theorem orderedInsertB_append (le : α → α → Bool) (a : α) :
    ∀ (l₁ l₂ : List α), (∀ b ∈ l₁, le a b = false) →
      (∀ c, l₂.head? = some c → le a c = true) →
      orderedInsertB le a (l₁ ++ l₂) = l₁ ++ a :: l₂
  | [], [], _, _ => rfl
  | [], c :: l₂, _, h2 => by
      simp only [List.nil_append, orderedInsertB, h2 c rfl, if_true]
  | b :: l₁, l₂, h1, h2 => by
      have hb : le a b = false := h1 b (by simp)
      simp only [List.cons_append, orderedInsertB, hb, Bool.false_eq_true,
        if_false, List.cons.injEq, true_and]
      exact orderedInsertB_append le a l₁ l₂ (fun x hx => h1 x (by simp [hx])) h2

/-- A stable insertion sort and Lean's stable merge sort agree whenever the
comparator is transitive and total: the output of a stable sort is unique,
so the embedding of the JavaScript sort does not depend on which stable
algorithm the engine uses. -/
theorem insertionSortB_eq_mergeSort (le : α → α → Bool)
    (htrans : ∀ a b c, le a b → le b c → le a c)
    (htotal : ∀ a b, le a b || le b a) :
    ∀ l : List α, insertionSortB le l = l.mergeSort le
  | [] => by simp [insertionSortB]
  | a :: l => by
      rw [insertionSortB, insertionSortB_eq_mergeSort le htrans htotal l]
      obtain ⟨l₁, l₂, h1, h2, h3⟩ := List.mergeSort_cons htrans htotal a l
      rw [h2, h1]
      apply orderedInsertB_append
      · intro b hb
        have := h3 b hb
        simpa using this
      · intro c hc
        have hs := List.sorted_mergeSort htrans htotal (a :: l)
        rw [h1] at hs
        have hc2 : c ∈ l₂ := by
          cases l₂ with
          | nil => simp at hc
          | cons x xs => simp_all
        exact List.rel_of_pairwise_cons (List.pairwise_append.mp hs).2.1 hc2

theorem mem_insertionSortB (le : α → α → Bool)
    (htrans : ∀ a b c, le a b → le b c → le a c)
    (htotal : ∀ a b, le a b || le b a)
    (l : List α) (x : α) : x ∈ insertionSortB le l ↔ x ∈ l := by
  rw [insertionSortB_eq_mergeSort le htrans htotal]
  exact List.mem_mergeSort

/-- The head of the stable sort is an element of the input that the
comparator places at or before every input element. -/
theorem insertionSortB_head_max (le : α → α → Bool)
    (htrans : ∀ a b c, le a b → le b c → le a c)
    (htotal : ∀ a b, le a b || le b a)
    {l : List α} (hne : l ≠ []) :
    ∃ hd t, insertionSortB le l = hd :: t ∧ hd ∈ l ∧ ∀ f ∈ l, le hd f := by
  rw [insertionSortB_eq_mergeSort le htrans htotal]
  have hp := List.mergeSort_perm l le
  cases hms : l.mergeSort le with
  | nil =>
      rw [hms] at hp
      exact absurd hp.symm.eq_nil hne
  | cons hd t =>
      refine ⟨hd, t, rfl, ?_, ?_⟩
      · have : hd ∈ l.mergeSort le := by rw [hms]; simp
        exact List.mem_mergeSort.mp this
      · intro f hf
        have hf2 : f ∈ hd :: t := by
          rw [← hms]
          exact List.mem_mergeSort.mpr hf
        rcases List.mem_cons.mp hf2 with h | h
        · rw [h]
          have := htotal hd hd
          simpa using this
        · have hs := List.sorted_mergeSort htrans htotal l
          rw [hms] at hs
          exact List.rel_of_pairwise_cons hs h

/-- Stability: on a duplicate-free input, the head of the stable sort is the
first input element that the comparator allows in front of the head, i.e.
ties are resolved by the input order. -/
theorem insertionSortB_head_first (le : α → α → Bool)
    (htrans : ∀ a b c, le a b → le b c → le a c)
    (htotal : ∀ a b, le a b || le b a)
    {l : List α} (hnd : l.Nodup) {hd : α} {t : List α}
    (h : insertionSortB le l = hd :: t) :
    l.find? (fun f => le f hd) = some hd := by
  rw [insertionSortB_eq_mergeSort le htrans htotal] at h
  have hdmem : hd ∈ l := by
    have : hd ∈ l.mergeSort le := by rw [h]; simp
    exact List.mem_mergeSort.mp this
  have hself : le hd hd := by have := htotal hd hd; simpa using this
  cases hfind : l.find? (fun f => le f hd) with
  | none =>
      have := List.find?_eq_none.mp hfind hd hdmem
      simp [hself] at this
  | some fm =>
      rcases List.find?_eq_some.mp hfind with ⟨hfm, as, bs, hsplit, has⟩
      by_cases hfmhd : fm = hd
      · rw [hfmhd]
      · exfalso
        have hdbs : hd ∈ bs := by
          rw [hsplit] at hdmem
          rcases List.mem_append.mp hdmem with h1 | h2
          · have := has hd h1
            simp [hself] at this
          · rcases List.mem_cons.mp h2 with h3 | h3
            · exact absurd h3.symm hfmhd
            · exact h3
        have hsub : List.Sublist [fm, hd] l := by
          rw [hsplit]
          have h1 : List.Sublist [fm, hd] (fm :: bs) :=
            List.Sublist.cons₂ fm (List.singleton_sublist.mpr hdbs)
          exact h1.trans (List.sublist_append_right as (fm :: bs))
        have hpair := List.pair_sublist_mergeSort htrans htotal hfm hsub
        rw [h] at hpair
        cases hpair with
        | cons _ h2 =>
            have hin : hd ∈ t := h2.subset (by simp)
            have hndms : (hd :: t).Nodup := by
              rw [← h]
              exact ((List.mergeSort_perm l le).nodup_iff).mpr hnd
            exact (List.nodup_cons.mp hndms).1 hin
        | cons₂ _ h2 => exact hfmhd rfl

theorem keyDesc_trans (k : α → Nat) :
    ∀ a b c : α, (decide (k b ≤ k a)) → (decide (k c ≤ k b)) →
      (decide (k c ≤ k a)) := by
  intro a b c h1 h2
  simp only [decide_eq_true_eq] at *
  omega

theorem keyDesc_total (k : α → Nat) :
    ∀ a b : α, (decide (k b ≤ k a)) || (decide (k a ≤ k b)) := by
  intro a b
  simp only [Bool.or_eq_true, decide_eq_true_eq]
  omega

theorem keyAsc_trans (k : α → Nat) :
    ∀ a b c : α, (decide (k a ≤ k b)) → (decide (k b ≤ k c)) →
      (decide (k a ≤ k c)) := by
  intro a b c h1 h2
  simp only [decide_eq_true_eq] at *
  omega

theorem keyAsc_total (k : α → Nat) :
    ∀ a b : α, (decide (k a ≤ k b)) || (decide (k b ≤ k a)) := by
  intro a b
  simp only [Bool.or_eq_true, decide_eq_true_eq]
  omega

theorem mem_foldl_insert (l : List String) (s : Finset String) (x : String) :
    x ∈ l.foldl (fun s p => insert p s) s ↔ x ∈ s ∨ x ∈ l := by
  induction l generalizing s with
  | nil => simp
  | cons p l ih =>
      rw [List.foldl_cons, ih]
      simp only [Finset.mem_insert, List.mem_cons]
      tauto

theorem mem_selectFindings (strategy : SmartSelectStrategy)
    (groups : List FileGroup) (x : String) :
    x ∈ selectFindings strategy groups ↔
      ∃ g, g ∈ groups ∧ 2 ≤ g.files.length ∧ x ∈ selectGroup strategy g := by
  have aux : ∀ (gs : List FileGroup) (acc : Finset String),
      x ∈ gs.foldl
        (fun acc g =>
          if g.files.length < 2 then acc
          else (selectGroup strategy g).foldl (fun s p => insert p s) acc)
        acc ↔
      x ∈ acc ∨ ∃ g, g ∈ gs ∧ 2 ≤ g.files.length ∧ x ∈ selectGroup strategy g := by
    intro gs
    induction gs with
    | nil => simp
    | cons g gs ih =>
        intro acc
        rw [List.foldl_cons]
        by_cases hlen : g.files.length < 2
        · rw [if_pos hlen, ih]
          constructor
          · rintro (h | ⟨g2, hg2, h2, hx⟩)
            · exact Or.inl h
            · exact Or.inr ⟨g2, List.mem_cons_of_mem g hg2, h2, hx⟩
          · rintro (h | ⟨g2, hg2, h2, hx⟩)
            · exact Or.inl h
            · rcases List.mem_cons.mp hg2 with rfl | hg3
              · omega
              · exact Or.inr ⟨g2, hg3, h2, hx⟩
        · rw [if_neg hlen, ih]
          rw [mem_foldl_insert]
          constructor
          · rintro ((h | h) | ⟨g2, hg2, h2, hx⟩)
            · exact Or.inl h
            · exact Or.inr ⟨g, List.mem_cons_self g gs, by omega, h⟩
            · exact Or.inr ⟨g2, List.mem_cons_of_mem g hg2, h2, hx⟩
          · rintro (h | ⟨g2, hg2, h2, hx⟩)
            · exact Or.inl (Or.inl h)
            · rcases List.mem_cons.mp hg2 with rfl | hg3
              · exact Or.inl (Or.inr hx)
              · exact Or.inr ⟨g2, hg3, h2, hx⟩
  rw [selectFindings, aux]
  simp

theorem mem_foldl_erase (l : List String) (s : Finset String) (x : String) :
    x ∈ l.foldl (fun next p => next.erase p) s ↔ x ∈ s ∧ x ∉ l := by
  induction l generalizing s with
  | nil => simp
  | cons p l ih =>
      rw [List.foldl_cons, ih]
      simp only [Finset.mem_erase, List.mem_cons]
      tauto

theorem sorted_tail_mem_iff (le : FileEntry → FileEntry → Bool)
    (htrans : ∀ a b c, le a b → le b c → le a c)
    (htotal : ∀ a b, le a b || le b a)
    {l : List FileEntry} (hnd : l.Nodup) {hd : FileEntry} {t : List FileEntry}
    (h : insertionSortB le l = hd :: t) (p : String) :
    p ∈ t.map FileEntry.path ↔ ∃ f, f ∈ l ∧ f ≠ hd ∧ f.path = p := by
  have hmem : ∀ f : FileEntry, f ∈ hd :: t ↔ f ∈ l := by
    intro f
    rw [← h, mem_insertionSortB le htrans htotal]
  have hnds : (hd :: t).Nodup := by
    rw [← h, insertionSortB_eq_mergeSort le htrans htotal]
    exact ((List.mergeSort_perm l le).nodup_iff).mpr hnd
  obtain ⟨hhd, hndt⟩ := List.nodup_cons.mp hnds
  constructor
  · intro hp
    obtain ⟨f, hft, hfp⟩ := List.mem_map.mp hp
    refine ⟨f, (hmem f).mp (List.mem_cons_of_mem hd hft), ?_, hfp⟩
    rintro rfl
    exact hhd hft
  · rintro ⟨f, hfl, hfne, rfl⟩
    rcases List.mem_cons.mp ((hmem f).mpr hfl) with h1 | h1
    · exact absurd h1 hfne
    · exact List.mem_map_of_mem FileEntry.path h1

theorem sortForStrategy_eq_sortForStrategyMS (strategy : SmartSelectStrategy)
    (files : List FileEntry) :
    sortForStrategy strategy files = sortForStrategyMS strategy files := by
  cases strategy with
  | keepNewest =>
      exact insertionSortB_eq_mergeSort _ (keyDesc_trans FileEntry.modified)
        (keyDesc_total FileEntry.modified) files
  | keepOldest =>
      exact insertionSortB_eq_mergeSort _ (keyAsc_trans FileEntry.modified)
        (keyAsc_total FileEntry.modified) files
  | keepLargest =>
      exact insertionSortB_eq_mergeSort _ (keyDesc_trans FileEntry.size)
        (keyDesc_total FileEntry.size) files
  | keepSmallest =>
      exact insertionSortB_eq_mergeSort _ (keyAsc_trans FileEntry.size)
        (keyAsc_total FileEntry.size) files
  | selectAllExceptOne => rfl

-- ---------------------------------------------------------------------------
-- Claim theorems
-- ---------------------------------------------------------------------------

/-- C3: every strategy processes each group independently, a group with
fewer than two entries contributes no paths, and the overall result is the
union of the per-group selections: a path is selected iff some group of at
least two files contributes it. -/
theorem c3_per_group_union :
    ∀ (strategy : SmartSelectStrategy) (groups : List FileGroup) (p : String),
      p ∈ selectFindings strategy groups ↔
        ∃ g, g ∈ groups ∧ 2 ≤ g.files.length ∧ p ∈ selectGroup strategy g :=
  fun strategy groups p => mem_selectFindings strategy groups p

/-- C5: the selection computation is deterministic and idempotent.  It is a
pure function of the grouped input, and its value does not even depend on
which stable sorting algorithm realizes Array.prototype.sort: computing it
with a stable insertion sort and with a stable merge sort yields the same
set, so two runs on identical input always yield identical output sets. -/
theorem c5_deterministic :
    ∀ (strategy : SmartSelectStrategy) (groups : List FileGroup),
      selectFindings strategy groups = selectFindingsMS strategy groups := by
  intro strategy groups
  simp only [selectFindings, selectFindingsMS, selectGroup, selectGroupMS,
    sortForStrategy_eq_sortForStrategyMS]

/-- C6: after a delete or trash disposition returns, a path stays selected
iff it was selected before and is not in the success list; in particular
every succeeded path is removed and every other path (including every
failed path) keeps its prior selection membership. -/
theorem c6_disposition_selection :
    ∀ (prev : Finset String) (result : FileOperationResult) (p : String),
      (p ∈ handleDeleteSelection prev result ↔
        p ∈ prev ∧ p ∉ result.success) ∧
      (p ∈ handleTrashSelection prev result ↔
        p ∈ prev ∧ p ∉ result.success) := by
  intro prev result p
  exact ⟨mem_foldl_erase result.success prev p, mem_foldl_erase result.success prev p⟩

/-- C9: a ping message is a no-op for the subscriber: the handler invokes
neither callback on it and leaves the hook state unchanged; the handler
never changes state on any message, and exactly the non-ping non-done
messages are delivered as progress events. -/
theorem c9_ping_no_op :
    ∀ (st : WsClientState) (raw : Option WsMessage),
      onMessage st (some .ping) = (st, []) ∧
      (onMessage st raw).1 = st ∧
      (∀ p, WsCallback.onProgress p ∈ (onMessage st raw).2 ↔
        raw = some (.progress p)) ∧
      (∀ s, WsCallback.onDone s ∈ (onMessage st raw).2 ↔
        raw = some (.done s)) := by
  intro st raw
  refine ⟨rfl, ?_, ?_, ?_⟩ <;>
    cases raw with
    | none => simp [onMessage]
    | some m => cases m <;> simp [onMessage, eq_comm]

/-- C10: applying a smart-select strategy on grouped results replaces the
entire active selection: the new selection equals the computed set, is
independent of the previous selection, and any previously selected path the
strategy does not produce ends up deselected. -/
theorem c10_replace_selection :
    ∀ (strategy : SmartSelectStrategy) (gs : List FileGroup)
      (prev prev2 : Finset String),
      handleSmartSelect strategy (some gs) prev = selectFindings strategy gs ∧
      handleSmartSelect strategy (some gs) prev =
        handleSmartSelect strategy (some gs) prev2 ∧
      (∀ p, p ∈ prev → p ∉ selectFindings strategy gs →
        p ∉ handleSmartSelect strategy (some gs) prev) :=
  fun _ _ _ _ => ⟨rfl, rfl, fun _ _ hnp => hnp⟩

/-- C10 witness: a concretely selected stale path "old" is dropped when the
strategy output does not contain it. -/
theorem c10_replace_selection_witness :
    "old" ∈ ({"old"} : Finset String) ∧
    "old" ∉ selectFindings .keepNewest [⟨2, [⟨"p1", 1, 1⟩, ⟨"p2", 2, 2⟩], 3⟩] ∧
    "old" ∉ handleSmartSelect .keepNewest
      (some [⟨2, [⟨"p1", 1, 1⟩, ⟨"p2", 2, 2⟩], 3⟩]) {"old"} := by
  have h1 : "old" ∈ ({"old"} : Finset String) := by decide
  have h2 : "old" ∉ selectFindings .keepNewest
      [⟨2, [⟨"p1", 1, 1⟩, ⟨"p2", 2, 2⟩], 3⟩] := by decide
  exact ⟨h1, h2,
    (c10_replace_selection .keepNewest [⟨2, [⟨"p1", 1, 1⟩, ⟨"p2", 2, 2⟩], 3⟩]
      {"old"} {"old"}).2.2 "old" h1 h2⟩

/-- C2: keep-newest sorts a group by modification time descending and
selects every entry except the first, so with distinct modification times
exactly the non-newest entries are selected; keep-oldest sorts ascending
and keeps the oldest entry in the same way. -/
theorem c2_keep_newest_oldest (g : FileGroup) (h2 : 2 ≤ g.files.length)
    (hm : (g.files.map FileEntry.modified).Nodup) :
    (∃ hd t, sortForStrategy .keepNewest g.files = hd :: t ∧ hd ∈ g.files ∧
      (∀ f ∈ g.files, f.modified ≤ hd.modified) ∧
      (∀ p, p ∈ selectGroup .keepNewest g ↔
        ∃ f, f ∈ g.files ∧ f ≠ hd ∧ f.path = p)) ∧
    (∃ hd t, sortForStrategy .keepOldest g.files = hd :: t ∧ hd ∈ g.files ∧
      (∀ f ∈ g.files, hd.modified ≤ f.modified) ∧
      (∀ p, p ∈ selectGroup .keepOldest g ↔
        ∃ f, f ∈ g.files ∧ f ≠ hd ∧ f.path = p)) := by
  have hne : g.files ≠ [] := by
    intro hnil
    rw [hnil] at h2
    simp at h2
  have hndl : g.files.Nodup := List.Nodup.of_map FileEntry.modified hm
  constructor
  · obtain ⟨hd, t, hsort, hhd, hmax⟩ :=
      insertionSortB_head_max
        (fun a b : FileEntry => decide (b.modified ≤ a.modified))
        (keyDesc_trans FileEntry.modified) (keyDesc_total FileEntry.modified) hne
    refine ⟨hd, t, hsort, hhd, ?_, ?_⟩
    · intro f hf
      simpa using hmax f hf
    · intro p
      have hsel : selectGroup .keepNewest g = t.map FileEntry.path := by
        simp [selectGroup, sortForStrategy, hsort]
      rw [hsel]
      exact sorted_tail_mem_iff _ (keyDesc_trans FileEntry.modified)
        (keyDesc_total FileEntry.modified) hndl hsort p
  · obtain ⟨hd, t, hsort, hhd, hmax⟩ :=
      insertionSortB_head_max
        (fun a b : FileEntry => decide (a.modified ≤ b.modified))
        (keyAsc_trans FileEntry.modified) (keyAsc_total FileEntry.modified) hne
    refine ⟨hd, t, hsort, hhd, ?_, ?_⟩
    · intro f hf
      simpa using hmax f hf
    · intro p
      have hsel : selectGroup .keepOldest g = t.map FileEntry.path := by
        simp [selectGroup, sortForStrategy, hsort]
      rw [hsel]
      exact sorted_tail_mem_iff _ (keyAsc_trans FileEntry.modified)
        (keyAsc_total FileEntry.modified) hndl hsort p

/-- C2 witness: a three-file group with distinct modification times; also
checks concretely that keep-newest selects exactly the two older files. -/
theorem c2_keep_newest_oldest_witness :
    (2 ≤ c2Group.files.length ∧
      (c2Group.files.map FileEntry.modified).Nodup) ∧
    ((∃ hd t, sortForStrategy .keepNewest c2Group.files = hd :: t ∧
        hd ∈ c2Group.files ∧
        (∀ f ∈ c2Group.files, f.modified ≤ hd.modified) ∧
        (∀ p, p ∈ selectGroup .keepNewest c2Group ↔
          ∃ f, f ∈ c2Group.files ∧ f ≠ hd ∧ f.path = p)) ∧
      (∃ hd t, sortForStrategy .keepOldest c2Group.files = hd :: t ∧
        hd ∈ c2Group.files ∧
        (∀ f ∈ c2Group.files, hd.modified ≤ f.modified) ∧
        (∀ p, p ∈ selectGroup .keepOldest c2Group ↔
          ∃ f, f ∈ c2Group.files ∧ f ≠ hd ∧ f.path = p))) ∧
    selectFindings .keepNewest [c2Group] = {"f1", "f2"} :=
  ⟨⟨by decide, by decide⟩,
    c2_keep_newest_oldest c2Group (by decide) (by decide),
    by decide⟩

/-- C4: except-one does not re-sort the group; on a group with at least two
entries it selects exactly the paths after the first entry of the given
order, and never the first entry's path. -/
theorem c4_except_one (g : FileGroup) (h2 : 2 ≤ g.files.length)
    (hnd : (g.files.map FileEntry.path).Nodup) :
    sortForStrategy .selectAllExceptOne g.files = g.files ∧
    ∃ hd t, g.files = hd :: t ∧
      (∀ p, p ∈ selectGroup .selectAllExceptOne g ↔ p ∈ t.map FileEntry.path) ∧
      hd.path ∉ selectGroup .selectAllExceptOne g := by
  refine ⟨rfl, ?_⟩
  cases hfiles : g.files with
  | nil =>
      rw [hfiles] at h2
      simp at h2
  | cons hd t =>
      refine ⟨hd, t, rfl, ?_, ?_⟩
      · intro p
        simp [selectGroup, sortForStrategy, hfiles]
      · have hnd2 : (hd.path :: t.map FileEntry.path).Nodup := by
          rw [hfiles] at hnd
          simpa using hnd
        intro hmem
        have : hd.path ∈ t.map FileEntry.path := by
          simpa [selectGroup, sortForStrategy, hfiles] using hmem
        exact (List.nodup_cons.mp hnd2).1 this

/-- C4 witness: on the concrete three-file group, except-one selects
exactly the two files after the given first. -/
theorem c4_except_one_witness :
    (2 ≤ c2Group.files.length ∧ (c2Group.files.map FileEntry.path).Nodup) ∧
    (sortForStrategy .selectAllExceptOne c2Group.files = c2Group.files ∧
      ∃ hd t, c2Group.files = hd :: t ∧
        (∀ p, p ∈ selectGroup .selectAllExceptOne c2Group ↔
          p ∈ t.map FileEntry.path) ∧
        hd.path ∉ selectGroup .selectAllExceptOne c2Group) ∧
    selectFindings .selectAllExceptOne [c2Group] = {"f2", "f3"} :=
  ⟨⟨by decide, by decide⟩,
    c4_except_one c2Group (by decide) (by decide),
    by decide⟩

/-- C1 counterexample: a two-file group of equal sizes whose incoming order
("b" before "a") disagrees with path order.  Under the claim's tie-break
the single largest entry is the one with path "a", yet the code's stable
sort keeps "b" and selects "a": the selected set contains the claim's
largest entry. -/
theorem c1_keep_largest_counterexample :
    2 ≤ c1Group.files.length ∧
    Option.map FileEntry.path (claimLargestByPathTie c1Group.files) = some "a" ∧
    "a" ∈ selectFindings .keepLargest [c1Group] :=
  ⟨by decide, by decide, by decide⟩

/-- C1 (amended): for a group of at least two entries with distinct paths,
keep-largest never selects the kept entry, which is an entry of maximal
size; a tie in size is broken by the group's incoming order (the kept entry
is the first entry of maximal size in the given order), not by path. -/
theorem c1_keep_largest_amended (g : FileGroup) (h2 : 2 ≤ g.files.length)
    (hnd : (g.files.map FileEntry.path).Nodup) :
    ∃ hd t, sortForStrategy .keepLargest g.files = hd :: t ∧ hd ∈ g.files ∧
      (∀ f ∈ g.files, f.size ≤ hd.size) ∧
      g.files.find? (fun f => decide (hd.size ≤ f.size)) = some hd ∧
      hd.path ∉ selectGroup .keepLargest g := by
  have hne : g.files ≠ [] := by
    intro hnil
    rw [hnil] at h2
    simp at h2
  have hndl : g.files.Nodup := List.Nodup.of_map FileEntry.path hnd
  obtain ⟨hd, t, hsort, hhd, hmax⟩ :=
    insertionSortB_head_max (fun a b : FileEntry => decide (b.size ≤ a.size))
      (keyDesc_trans FileEntry.size) (keyDesc_total FileEntry.size) hne
  refine ⟨hd, t, hsort, hhd, ?_, ?_, ?_⟩
  · intro f hf
    simpa using hmax f hf
  · exact insertionSortB_head_first _ (keyDesc_trans FileEntry.size)
      (keyDesc_total FileEntry.size) hndl hsort
  · intro hmem
    have hsel : selectGroup .keepLargest g = t.map FileEntry.path := by
      simp [selectGroup, sortForStrategy, hsort]
    rw [hsel] at hmem
    obtain ⟨f, hfl, hfne, hfp⟩ :=
      (sorted_tail_mem_iff _ (keyDesc_trans FileEntry.size)
        (keyDesc_total FileEntry.size) hndl hsort hd.path).mp hmem
    exact hfne (List.inj_on_of_nodup_map hnd hfl hhd hfp)

/-- C1 (amended) witness: on the tie group the kept entry is the first
equal-sized entry in incoming order and its path is never selected. -/
theorem c1_keep_largest_amended_witness :
    (2 ≤ c1Group.files.length ∧ (c1Group.files.map FileEntry.path).Nodup) ∧
    (∃ hd t, sortForStrategy .keepLargest c1Group.files = hd :: t ∧
      hd ∈ c1Group.files ∧ (∀ f ∈ c1Group.files, f.size ≤ hd.size) ∧
      c1Group.files.find? (fun f => decide (hd.size ≤ f.size)) = some hd ∧
      hd.path ∉ selectGroup .keepLargest c1Group) :=
  ⟨⟨by decide, by decide⟩,
    c1_keep_largest_amended c1Group (by decide) (by decide)⟩

/-- C7: from every toolbar state, pressing the Delete Selected button emits
no callback at all and only stages delete for confirmation (opening the
dialog), and a delete callback can arise only from the dialog's confirm
action while the staged action is delete, with exactly the selected
paths. -/
theorem c7_delete_needs_confirmation :
    ∀ (s : ToolbarState) (e : ToolbarEvent) (paths ps : List String),
      ((toolbarStep s .clickDeleteButton paths).2 = [] ∧
        (toolbarStep s .clickDeleteButton paths).1 = ⟨some .delete⟩) ∧
      (ToolbarEffect.callDelete ps ∈ (toolbarStep s e paths).2 →
        e = .clickConfirm ∧ s.confirmAction = some .delete ∧ ps = paths) := by
  intro s e paths ps
  refine ⟨⟨rfl, rfl⟩, ?_⟩
  intro hmem
  cases e with
  | clickClearSelection => simp [toolbarStep] at hmem
  | clickSmartSelect strategy => simp [toolbarStep] at hmem
  | clickExportCSV => simp [toolbarStep] at hmem
  | clickTrashButton => simp [toolbarStep] at hmem
  | clickDeleteButton => simp [toolbarStep] at hmem
  | dialogOpenChange => simp [toolbarStep] at hmem
  | clickConfirm =>
      obtain ⟨ca⟩ := s
      cases ca with
      | none => simp [toolbarStep, dialogOpen] at hmem
      | some k =>
          cases k with
          | delete =>
              simp [toolbarStep, dialogOpen, confirmClick] at hmem
              exact ⟨rfl, rfl, hmem⟩
          | trash => simp [toolbarStep, dialogOpen, confirmClick] at hmem

/-- C7 witness: the delete callback does fire on confirm with delete
staged, and the theorem then identifies the event and state. -/
theorem c7_delete_needs_confirmation_witness :
    ToolbarEffect.callDelete ["x"] ∈
      (toolbarStep ⟨some .delete⟩ .clickConfirm ["x"]).2 ∧
    (ToolbarEvent.clickConfirm = ToolbarEvent.clickConfirm ∧
      (⟨some DispositionKind.delete⟩ : ToolbarState).confirmAction =
        some DispositionKind.delete ∧
      (["x"] : List String) = ["x"]) := by
  have hmem : ToolbarEffect.callDelete ["x"] ∈
      (toolbarStep ⟨some .delete⟩ .clickConfirm ["x"]).2 := by decide
  exact ⟨hmem,
    (c7_delete_needs_confirmation ⟨some .delete⟩ .clickConfirm ["x"] ["x"]).2 hmem⟩

/-- C8: while under the retry bound, every close schedules a reconnect
whose delay is 1000·2^attempt milliseconds capped at 10000, so the delay
doubles from the 1000 ms base on each successive attempt up to the cap;
once maxRetries (5) consecutive attempts have failed no reconnect is ever
scheduled again, as the concrete trace of six consecutive closes shows. -/
theorem c8_reconnect_backoff :
    ∀ st : WsClientState,
      (st.retries < maxRetries →
        (onClose st).2 = some (reconnectDelay (st.retries + 1)) ∧
        (onClose st).1 = ⟨false, st.retries + 1⟩) ∧
      (∀ r, reconnectDelay (r + 1) = min (2 * reconnectDelay r) 10000) ∧
      (∀ r, reconnectDelay r ≤ 10000) ∧
      (maxRetries ≤ st.retries →
        (onClose st).2 = none ∧ (onClose st).1 = ⟨false, st.retries⟩) ∧
      closeTrace 6 ⟨true, 0⟩ =
        [some 2000, some 4000, some 8000, some 10000, some 10000, none] := by
  intro st
  refine ⟨?_, ?_, ?_, ?_, by decide⟩
  · intro h
    simp [onClose, h]
  · intro r
    have h2 : 1000 * 2 ^ (r + 1) = 2 * (1000 * 2 ^ r) := by ring
    rw [reconnectDelay, reconnectDelay, h2]
    generalize 1000 * 2 ^ r = a
    omega
  · intro r
    exact min_le_right _ _
  · intro h
    have h2 : ¬ st.retries < maxRetries := by omega
    simp [onClose, h2]

/-- C8 witness: a fresh client schedules the first backoff delay, and a
client that has used up its five attempts schedules nothing. -/
theorem c8_reconnect_backoff_witness :
    ((⟨false, 0⟩ : WsClientState).retries < maxRetries ∧
      (onClose ⟨false, 0⟩).2 = some (reconnectDelay 1)) ∧
    (maxRetries ≤ (⟨false, 5⟩ : WsClientState).retries ∧
      (onClose ⟨false, 5⟩).2 = none) :=
  ⟨⟨by decide, ((c8_reconnect_backoff ⟨false, 0⟩).1 (by decide)).1⟩,
    ⟨by decide, ((c8_reconnect_backoff ⟨false, 5⟩).2.2.2.1 (by decide)).1⟩⟩
